import Mathlib

/-!
Verification development for the EmuNinja core (rule-matching engine,
stream-framed protocol handler, and emulator manager lifecycle layer).

The definitions below are a shallow embedding of the Python source:

 * `src/emuninja/core/rules.py`          → `find_response`, `read_registers`,
                                           `write_register`
 * `src/emuninja/protocols/scpi_handler.py` → `handle_data` (stream-framed)
 * `src/emuninja/core/emulator.py`       → `start_all`, `stop_all`,
                                           `get_active_device_count`

Python strings are modelled as `List Char` (sequences of code points),
Python `bytes` as `List Nat`, Python dicts as association lists with
first-key lookup and in-place replacement on update.  Python exceptions
are modelled with `Except Unit` / `Option` where the source can raise.
-/

/-- Model of the Python values that flow through the rule engine:
decoded strings, raw bytes, integers, and `None`.  Python equality on
these values is type-sensitive (a `str` never equals a `bytes`). -/
inductive PyVal where
  | vstr (s : List Char)
  | vbytes (b : List Nat)
  | vint (n : Int)
  | vnone
deriving DecidableEq, Repr

/-- Python `==` on the modelled values: structural equality within one
representation, `False` across representations. -/
def pyEq : PyVal → PyVal → Bool
  | .vstr a, .vstr b => a == b
  | .vbytes a, .vbytes b => a == b
  | .vint a, .vint b => a == b
  | .vnone, .vnone => true
  | _, _ => false

/-- Is a byte a UTF-8 continuation byte (`0x80..0xBF`)? -/
def isCont (b : Nat) : Bool := decide (0x80 ≤ b) && decide (b ≤ 0xBF)

/-- Valid second byte of a three-byte UTF-8 sequence (excludes overlong
encodings for lead `0xE0` and surrogates for lead `0xED`). -/
def cont3Ok (b1 b2 : Nat) : Bool :=
  if b1 = 0xE0 then decide (0xA0 ≤ b2) && decide (b2 ≤ 0xBF)
  else if b1 = 0xED then decide (0x80 ≤ b2) && decide (b2 ≤ 0x9F)
  else isCont b2

/-- Valid second byte of a four-byte UTF-8 sequence. -/
def cont4Ok (b1 b2 : Nat) : Bool :=
  if b1 = 0xF0 then decide (0x90 ≤ b2) && decide (b2 ≤ 0xBF)
  else if b1 = 0xF4 then decide (0x80 ≤ b2) && decide (b2 ≤ 0x8F)
  else isCont b2

/-- Decoding loop for `utf8DecodeIgnore`.  Every recursive call consumes
at least one byte while the fuel drops by one, so fuel equal to the
input length (as supplied by the wrapper) never runs out. -/
def utf8Loop : Nat → List Nat → List Char
  | 0, _ => []
  | _ + 1, [] => []
  | fuel + 1, b1 :: t1 =>
    if b1 ≤ 0x7F then Char.ofNat b1 :: utf8Loop fuel t1
    else if 0xC2 ≤ b1 ∧ b1 ≤ 0xDF then
      match t1 with
      | [] => []
      | b2 :: t2 =>
        if isCont b2 then
          Char.ofNat ((b1 - 0xC0) * 0x40 + (b2 - 0x80)) :: utf8Loop fuel t2
        else utf8Loop fuel t1
    else if 0xE0 ≤ b1 ∧ b1 ≤ 0xEF then
      match t1 with
      | [] => []
      | b2 :: t2 =>
        if cont3Ok b1 b2 then
          match t2 with
          | [] => []
          | b3 :: t3 =>
            if isCont b3 then
              Char.ofNat (((b1 - 0xE0) * 0x40 + (b2 - 0x80)) * 0x40 + (b3 - 0x80)) ::
                utf8Loop fuel t3
            else utf8Loop fuel t2
        else utf8Loop fuel t1
    else if 0xF0 ≤ b1 ∧ b1 ≤ 0xF4 then
      match t1 with
      | [] => []
      | b2 :: t2 =>
        if cont4Ok b1 b2 then
          match t2 with
          | [] => []
          | b3 :: t3 =>
            if isCont b3 then
              match t3 with
              | [] => []
              | b4 :: t4 =>
                if isCont b4 then
                  Char.ofNat ((((b1 - 0xF0) * 0x40 + (b2 - 0x80)) * 0x40 + (b3 - 0x80)) *
                      0x40 + (b4 - 0x80)) :: utf8Loop fuel t4
                else utf8Loop fuel t3
            else utf8Loop fuel t2
        else utf8Loop fuel t1
    else utf8Loop fuel t1

/-- Model of Python `bytes.decode("utf-8", errors="ignore")`: decode
UTF-8, silently dropping invalid sequences (decoding resumes at the
byte that broke the current sequence). -/
def utf8DecodeIgnore (bs : List Nat) : List Char := utf8Loop bs.length bs

/-- The `receive` mapping of one rule, after `RuleEngine.__init__`:
`rtype` is `receive.get("type")`, `value` is `receive.get("value")`
(`vnone` when the key is absent). -/
structure ReceiveRule where
  rtype : Option String
  value : PyVal

/-- One compiled rule as held in `RuleEngine._compiled_rules`.
`receive = none` models a rule whose `receive` mapping is missing or an
empty dict (both falsy in Python).  `compiledRegex` models the
`_compiled_regex` entry: `none` when absent or when `re.compile`
failed at load time; the compiled pattern itself (Python's `re` engine)
is opaque to this code, so it is modelled as a matcher function that,
like any Python call, may raise (`Except.error`).  `delay` is
`float(rule.get("delay", 0.0))` for a numeric config value. -/
structure Rule where
  receive : Option ReceiveRule
  respondValue : PyVal
  delay : Rat
  compiledRegex : Option (List Char → Except Unit Bool)

/-- The result type of `RuleEngine.find_response`. -/
structure RuleMatch where
  response : PyVal
  delay : Rat
deriving DecidableEq, Repr

/-- Evaluation of one rule's match condition against a parsed request
(the body of the `try` block in `RuleEngine.find_response`):
`exact` uses Python `==`; `prefix` requires both operands to be `str`
or both `bytes` and uses `startswith`; `regex` coerces the request to
text (bytes decoded as UTF-8 with errors ignored) and applies the
compiled pattern; any other (or missing) type never matches.
An `Except.error` models a Python exception raised inside the block. -/
def evalMatch (r : Rule) (recv : ReceiveRule) (req : PyVal) : Except Unit Bool :=
  if recv.rtype = some "exact" then .ok (pyEq recv.value req)
  else if recv.rtype = some "prefix" then
    .ok (match req, recv.value with
      | .vstr p, .vstr v => v.isPrefixOf p
      | .vbytes p, .vbytes v => v.isPrefixOf p
      | _, _ => false)
  else if recv.rtype = some "regex" then
    match r.compiledRegex with
    | none => .ok false
    | some m =>
      match req with
      | .vbytes bs => m (utf8DecodeIgnore bs)
      | .vstr s => m s
      | _ => .ok false
  else .ok false

/-- `RuleEngine.find_response`: walk the compiled rules in declaration
order; skip rules with a missing/empty `receive` mapping; evaluate each
match condition, treating an exception as a non-match (logged and
skipped); return the response value and delay of the first match,
`none` when no rule matches. -/
def find_response : List Rule → PyVal → Option RuleMatch
  | [], _ => none
  | r :: rs, req =>
    match r.receive with
    | none => find_response rs req
    | some recv =>
      match evalMatch r recv req with
      | .ok true => some ⟨r.respondValue, r.delay⟩
      | .ok false => find_response rs req
      | .error _ => find_response rs req

/-- A rule fires on a request: its `receive` mapping is present and its
match condition evaluates (without raising) to `True`. -/
def ruleMatches (r : Rule) (req : PyVal) : Bool :=
  match r.receive with
  | none => false
  | some recv =>
    match evalMatch r recv req with
    | .ok true => true
    | _ => false

/-- First-match lookup in a Python-dict model (association list). -/
def alLookup {α β : Type} [DecidableEq α] : List (α × β) → α → Option β
  | [], _ => none
  | (k, v) :: t, a => if k = a then some v else alLookup t a

/-- Python-dict assignment `d[k] = v`: replace the binding of an
existing key in place, append a new key at the end. -/
def alSet {α β : Type} [DecidableEq α] : List (α × β) → α → β → List (α × β)
  | [], a, b => [(a, b)]
  | (k, v) :: t, a, b => if k = a then (a, b) :: t else (k, v) :: alSet t a b

/-- Apply a function to the value bound to a key (no-op if absent). -/
def alModify {α β : Type} [DecidableEq α] : List (α × β) → α → (β → β) → List (α × β)
  | [], _, _ => []
  | (k, v) :: t, a, f => if k = a then (k, f v) :: t else (k, v) :: alModify t a f

/-- The register store `RuleEngine.registers`:
`register_type → (address → value)`. -/
abbrev RegMap := List (String × List (Int × Int))

/-- The read loop of `RuleEngine.read_registers`: for each offset in
`range(count)`, take the stored value when the address is present,
synthesize `0` when absent; the second component collects the addresses
for which the missing-register warning was printed. -/
def readLoop (space : List (Int × Int)) (address : Int) : Nat → List Int × List Int
  | 0 => ([], [])
  | n + 1 =>
    let rest := readLoop space (address + 1) n
    match alLookup space address with
    | some v => (v :: rest.1, rest.2)
    | none => (0 :: rest.1, address :: rest.2)

/-- `RuleEngine.read_registers`: `none` (plus no missing-address
warnings) for an unknown register type, a negative address or a
non-positive count; otherwise the `count` values starting at `address`,
zero-filled at missing addresses, together with the list of addresses
warned about. -/
def read_registers (regs : RegMap) (rt : String) (address count : Int) :
    Option (List Int) × List Int :=
  match alLookup regs rt with
  | none => (none, [])
  | some space =>
    if address < 0 ∨ count ≤ 0 then (none, [])
    else
      let r := readLoop space address count.toNat
      (some r.1, r.2)

/-- `RuleEngine.write_register`: fails (`False`, modelled `none`) for an
unknown register type or a negative address, otherwise stores the value
at the address (returning the updated register store). -/
def write_register (regs : RegMap) (rt : String) (address : Int) (value : Int) :
    Option RegMap :=
  match alLookup regs rt with
  | none => none
  | some _ =>
    if address < 0 then none
    else some (alModify regs rt (fun sp => alSet sp address value))

/-- Configuration of `ScpiProtocolHandler`: the terminator byte sequence
(`config["terminator"].encode("ascii")`, default `b"\n"`) and the text
codec named by `config["encoding"]` (default `"ascii"`).  The codec is
Python's codec machinery, modelled as a function that may fail
(`None` models a raised `UnicodeEncodeError`/`LookupError`). -/
structure ScpiConfig where
  terminator : List Nat
  encode : List Char → Option (List Nat)

/-- The `"ascii"` codec: succeeds exactly when every character is
7-bit, producing the corresponding byte values. -/
def asciiEncode (s : List Char) : Option (List Nat) :=
  if s.all (fun c => c.toNat ≤ 0x7F) then some (s.map (fun c => c.toNat)) else none

/-- Python `bytes.find(sub)`: index of the first occurrence of `term`
as a contiguous sublist of `buf` (`none` for Python's `-1`). -/
def findSub (term : List Nat) : List Nat → Option Nat
  | [] => if term.isPrefixOf [] then some 0 else none
  | b :: t =>
    if term.isPrefixOf (b :: t) then some 0
    else (findSub term t).map (fun i => i + 1)

/-- Outcome of processing one extracted command inside
`ScpiProtocolHandler.handle_data`'s loop body. -/
inductive CmdRes where
  | abort
  | skip
  | part (p : List Nat)
deriving DecidableEq, Repr

/-- Processing of one complete command (terminator included) in
`handle_data`: look the command bytes up in the rule engine; no match
or a `None` response contributes nothing; a `str` response is encoded
with the configured codec (an encoding exception escapes to the
handler's `except` block: `abort`); a `bytes` response is used as-is;
any other non-`None` value is stringified and encoded inside an inner
`try` whose failure merely skips this response part. -/
def processCmd (rules : List Rule) (cfg : ScpiConfig) (cmd : List Nat) : CmdRes :=
  match find_response rules (PyVal.vbytes cmd) with
  | none => .skip
  | some m =>
    match m.response with
    | .vnone => .skip
    | .vstr s =>
      match cfg.encode s with
      | some bs => .part bs
      | none => .abort
    | .vbytes bs => .part bs
    | .vint n =>
      match cfg.encode (toString n).data with
      | some bs => .part bs
      | none => .skip

/-- The `while True` loop of `handle_data`: repeatedly locate the
terminator, split off the command (terminator included), and process
it.  Result: the collected response parts in extraction order, the
remaining buffer, and whether an exception aborted the loop (in which
case the buffer was cleared and all parts are discarded).  Fuel bounds
the iteration count; the wrapper passes `buffer.length + 1`, which with
a non-empty terminator can never be exhausted. -/
def scpiLoop (rules : List Rule) (cfg : ScpiConfig) :
    Nat → List Nat → List (List Nat) × List Nat × Bool
  | 0, buf => ([], buf, false)
  | fuel + 1, buf =>
    match findSub cfg.terminator buf with
    | none => ([], buf, false)
    | some i =>
      let cmd := buf.take (i + cfg.terminator.length)
      let rest := buf.drop (i + cfg.terminator.length)
      match processCmd rules cfg cmd with
      | .abort => ([], [], true)
      | .skip => scpiLoop rules cfg fuel rest
      | .part p =>
        let r := scpiLoop rules cfg fuel rest
        (p :: r.1, r.2.1, r.2.2)

/-- `ScpiProtocolHandler.handle_data` with the persistent buffer made
explicit: append the received bytes to the buffer, drain complete
commands, and return the new buffer together with the response (the
concatenation of all response parts, `none` when there are none; on an
exception the buffer is cleared and `none` returned). -/
def handle_data (rules : List Rule) (cfg : ScpiConfig)
    (buffer input : List Nat) : List Nat × Option (List Nat) :=
  let b := buffer ++ input
  let r := scpiLoop rules cfg (b.length + 1) b
  if r.2.2 then ([], none)
  else (r.2.1, if r.1 = [] then none else some r.1.flatten)

/-- A complete frame for terminator `term`: it ends with `term` and
contains no earlier occurrence of `term` (that is, the first occurrence
found by `bytes.find` is the terminating one). -/
def IsFrame (term f : List Nat) : Prop :=
  ∃ c, f = c ++ term ∧ findSub term f = some c.length

/-- The response part contributed by one command, if any. -/
def partOf (rules : List Rule) (cfg : ScpiConfig) (cmd : List Nat) :
    Option (List Nat) :=
  match processCmd rules cfg cmd with
  | .part p => some p
  | _ => none

/-- Combine response parts the way `handle_data` returns them. -/
def joinResp (ps : List (List Nat)) : Option (List Nat) :=
  if ps = [] then none else some ps.flatten

/-- The `enabled` flag of a device definition as read by
`EmulatorManager.start_all`: a proper boolean, or a non-boolean value
(warned about and treated as `True`).  A missing flag defaults to
`True` and is covered by `etrue`. -/
inductive EnabledVal where
  | etrue
  | efalse
  | nonbool
deriving DecidableEq, Repr

/-- Effective enabledness after `start_all`'s `isinstance` check. -/
def effEnabled : EnabledVal → Bool
  | .etrue => true
  | .efalse => false
  | .nonbool => true

/-- One loaded device definition as consumed by `start_all`, with the
outcomes of the externally-effectful steps abstracted as flags:
`createOk` — whether `_create_device_instance` returns (vs. raises);
`startOk` — whether the scheduled `instance.start()` task succeeds;
`stopOk` — whether a later `instance.stop()` succeeds. -/
structure DeviceConf where
  name : List Char
  enabled : EnabledVal
  createOk : Bool
  startOk : Bool
  stopOk : Bool
deriving DecidableEq, Repr

/-- A tracked `DeviceInstance`, reduced to the one outcome the
lifecycle claims observe: whether its `stop()` raises. -/
structure DevInst where
  stopOk : Bool
deriving DecidableEq, Repr

/-- `EmulatorManager.devices`: a Python dict keyed by instance name. -/
abbrev DeviceDict := List (List Char × DevInst)

/-- The per-definition step of `start_all`'s loop: skip disabled
definitions; for an enabled one, a construction failure is caught and
logged, leaving the dict unchanged; on success the instance is stored
under its name (overwriting a duplicate) and its start task scheduled.
The subsequent `asyncio.gather(..., return_exceptions=True)` swallows
start failures without touching the dict, so `startOk` plays no role
here. -/
def startStep (d : DeviceDict) (c : DeviceConf) : DeviceDict :=
  if effEnabled c.enabled then
    if c.createOk then alSet d c.name ⟨c.stopOk⟩ else d
  else d

/-- `EmulatorManager.start_all`: reset the device dict, then run the
loop over all loaded definitions. -/
def start_all (confs : List DeviceConf) : DeviceDict :=
  confs.foldl startStep []

/-- `EmulatorManager.stop_all`: gather the stops of all tracked
instances *without* `return_exceptions=True` — if every stop succeeds
the dict is cleared, otherwise `gather` re-raises the first failure
(second component `true`) and the assignment `self.devices = {}` is
never reached, leaving the dict unchanged. -/
def stop_all (d : DeviceDict) : DeviceDict × Bool :=
  if d.all (fun kv => kv.2.stopOk) then ([], false) else (d, true)

/-- `EmulatorManager.get_active_device_count`: `len(self.devices)`. -/
def get_active_device_count (d : DeviceDict) : Nat := d.length

/-- Names of the enabled device definitions whose construction
succeeded, in declaration order. -/
def createdNames (confs : List DeviceConf) : List (List Char) :=
  (confs.filter (fun c => effEnabled c.enabled && c.createOk)).map (fun c => c.name)

/-- Modelled from the claim wording of C1: the number of enabled
devices that were both constructed and started successfully. -/
def c1ClaimedCount (confs : List DeviceConf) : Nat :=
  (confs.filter (fun c => effEnabled c.enabled && c.createOk && c.startOk)).length

/-- Key update of a dict insertion: an existing key keeps its position,
a new key is appended. -/
def keyInsert {α : Type} [DecidableEq α] (ks : List α) (k : α) : List α :=
  if k ∈ ks then ks else ks ++ [k]

/-- `b"PING\n"`. -/
def pingBytes : List Nat := [80, 73, 78, 71, 10]

/-- `b"PONG\n"`. -/
def pongBytes : List Nat := [80, 79, 78, 71, 10]

/-- An exact-match rule `b"PING\n" → b"PONG\n"` with zero delay. -/
def pingRule : Rule := ⟨some ⟨some "exact", .vbytes pingBytes⟩, .vbytes pongBytes, 0, none⟩

/-- A regex `receive` mapping whose evaluation will raise. -/
def errRecv : ReceiveRule := ⟨some "regex", .vnone⟩

/-- A rule whose compiled pattern raises when applied. -/
def errRule : Rule := ⟨some errRecv, .vnone, 0, some (fun _ => .error ())⟩

/-- SCPI config with terminator `b"\n"` and the `"ascii"` codec. -/
def scpiCfg : ScpiConfig := ⟨[10], asciiEncode⟩

/-- A register map holding only `holding[6] = 77`. -/
def demoRegs : RegMap := [("holding", [(6, 77)])]

/-- An enabled device that constructs fine but whose start task fails. -/
def c1BadConf : DeviceConf := ⟨['d'], .etrue, true, false, true⟩

/-- An enabled device that constructs and starts fine. -/
def c1GoodA : DeviceConf := ⟨['a'], .etrue, true, true, true⟩

/-- An enabled device whose construction raises. -/
def c1FailCreate : DeviceConf := ⟨['b'], .etrue, false, true, true⟩

/-- Another enabled device that constructs and starts fine. -/
def c1GoodC : DeviceConf := ⟨['c'], .etrue, true, true, true⟩

/-- Two tracked devices whose stops succeed. -/
def c2GoodDict : DeviceDict := [(['a'], ⟨true⟩), (['b'], ⟨true⟩)]

/-- One tracked device whose stop raises. -/
def c2BadDict : DeviceDict := [(['d'], ⟨false⟩)]

theorem pyEq_iff (a b : PyVal) : pyEq a b = true ↔ a = b := by
  cases a <;> cases b <;> simp [pyEq]

theorem isPrefixOf_eq_true_iff {α : Type} [BEq α] [LawfulBEq α] :
    ∀ (l₁ l₂ : List α), l₁.isPrefixOf l₂ = true ↔ ∃ t, l₂ = l₁ ++ t
  | [], l₂ => by simp [List.isPrefixOf]
  | a :: l₁, [] => by simp [List.isPrefixOf]
  | a :: l₁, b :: l₂ => by
    simp only [List.isPrefixOf, Bool.and_eq_true, beq_iff_eq,
      isPrefixOf_eq_true_iff l₁ l₂, List.cons_append, List.cons.injEq]
    constructor
    · rintro ⟨rfl, t, rfl⟩; exact ⟨t, rfl, rfl⟩
    · rintro ⟨t, rfl, rfl⟩; exact ⟨rfl, t, rfl⟩

theorem isPrefixOf_of_append {α : Type} [BEq α] [LawfulBEq α] (t L R : List α)
    (hlen : t.length ≤ L.length) (h : t.isPrefixOf (L ++ R) = true) :
    t.isPrefixOf L = true := by
  obtain ⟨u, hu⟩ := (isPrefixOf_eq_true_iff t (L ++ R)).1 h
  have h1 : (L ++ R).take t.length = t := by rw [hu]; exact List.take_left t u
  have h2 : (L ++ R).take t.length = L.take t.length := by
    rw [List.take_append_eq_append_take, Nat.sub_eq_zero_of_le hlen]
    simp
  have h3 : L.take t.length = t := h2.symm.trans h1
  refine (isPrefixOf_eq_true_iff t L).2 ⟨L.drop t.length, ?_⟩
  conv_lhs => rw [← List.take_append_drop t.length L, h3]

theorem findSub_nil (term : List Nat) (h : term ≠ []) : findSub term [] = none := by
  cases term with
  | nil => exact absurd rfl h
  | cons a t => simp [findSub, List.isPrefixOf]

theorem findSub_of_isPrefixOf (term buf : List Nat) (h : term.isPrefixOf buf = true) :
    findSub term buf = some 0 := by
  cases buf <;> simp [findSub, h]

theorem findSub_cons_of_not (term : List Nat) (b : Nat) (t : List Nat)
    (h : ¬ term.isPrefixOf (b :: t) = true) :
    findSub term (b :: t) = (findSub term t).map (fun i => i + 1) := by
  simp [findSub, h]

theorem findSub_le (term : List Nat) : ∀ (buf : List Nat) (i : Nat),
    findSub term buf = some i → i + term.length ≤ buf.length := by
  intro buf
  induction buf with
  | nil =>
    intro i h
    cases term with
    | nil =>
      rw [findSub_of_isPrefixOf [] [] (by simp [List.isPrefixOf])] at h
      have hi : i = 0 := by injection h with h'; omega
      simp [hi]
    | cons a t' =>
      rw [findSub_nil _ (by simp)] at h
      exact absurd h (by simp)
  | cons b t ih =>
    intro i h
    by_cases hp : term.isPrefixOf (b :: t) = true
    · rw [findSub_of_isPrefixOf _ _ hp] at h
      obtain ⟨u, hu⟩ := (isPrefixOf_eq_true_iff term (b :: t)).1 hp
      have hi : i = 0 := by injection h with h'; omega
      have hlen : term.length ≤ (b :: t).length := by rw [hu]; simp
      subst hi
      simpa using hlen
    · rw [findSub_cons_of_not _ _ _ hp] at h
      obtain ⟨j, hj, hji⟩ := Option.map_eq_some'.1 h
      have := ih j hj
      simp only [List.length_cons]
      omega

theorem findSub_frame (term : List Nat) :
    ∀ (c rest : List Nat), findSub term (c ++ term) = some c.length →
      findSub term ((c ++ term) ++ rest) = some c.length := by
  intro c
  induction c with
  | nil =>
    intro rest h
    have hp : term.isPrefixOf (term ++ rest) = true :=
      (isPrefixOf_eq_true_iff _ _).2 ⟨rest, rfl⟩
    simpa using findSub_of_isPrefixOf _ _ hp
  | cons x c ih =>
    intro rest h
    have hnp : ¬ term.isPrefixOf ((x :: c) ++ term) = true := by
      intro hp
      rw [findSub_of_isPrefixOf _ _ hp] at h
      simp at h
    have hnp2 : ¬ term.isPrefixOf (((x :: c) ++ term) ++ rest) = true := by
      intro hp
      exact hnp (isPrefixOf_of_append term ((x :: c) ++ term) rest
        (by simp; omega) hp)
    have hstep : findSub term ((x :: c) ++ term) =
        (findSub term (c ++ term)).map (fun i => i + 1) := by
      rw [List.cons_append]
      exact findSub_cons_of_not _ _ _ (by rw [← List.cons_append]; exact hnp)
    rw [hstep] at h
    obtain ⟨j, hj, hji⟩ := Option.map_eq_some'.1 h
    have hjc : j = c.length := by simp at hji; omega
    subst hjc
    have hrec := ih rest hj
    rw [show ((x :: c) ++ term) ++ rest = x :: ((c ++ term) ++ rest) from by simp]
    rw [findSub_cons_of_not _ _ _
      (by rw [show x :: ((c ++ term) ++ rest) = ((x :: c) ++ term) ++ rest from by simp]
          exact hnp2)]
    rw [hrec]
    simp

theorem scpiLoop_nil (rules : List Rule) (cfg : ScpiConfig)
    (h : cfg.terminator ≠ []) (f : Nat) :
    scpiLoop rules cfg f [] = ([], [], false) := by
  cases f with
  | zero => rfl
  | succ k => simp [scpiLoop, findSub_nil _ h]

theorem scpiLoop_fuel_congr (rules : List Rule) (cfg : ScpiConfig)
    (h : cfg.terminator ≠ []) :
    ∀ (f₁ : Nat) (buf : List Nat) (f₂ : Nat), buf.length < f₁ → buf.length < f₂ →
      scpiLoop rules cfg f₁ buf = scpiLoop rules cfg f₂ buf := by
  intro f₁
  induction f₁ with
  | zero => intro buf f₂ h1 h2; exact absurd h1 (Nat.not_lt_zero _)
  | succ k ih =>
    intro buf f₂ h1 h2
    cases f₂ with
    | zero => exact absurd h2 (Nat.not_lt_zero _)
    | succ m =>
      simp only [scpiLoop]
      cases hf : findSub cfg.terminator buf with
      | none => rfl
      | some i =>
        have hle := findSub_le _ _ _ hf
        have htl : 1 ≤ cfg.terminator.length := by
          cases hc : cfg.terminator with
          | nil => exact absurd hc h
          | cons a t => simp
        have hrest : (buf.drop (i + cfg.terminator.length)).length =
            buf.length - (i + cfg.terminator.length) := List.length_drop _ _
        dsimp only
        cases hp : processCmd rules cfg (buf.take (i + cfg.terminator.length)) with
        | abort => rfl
        | skip =>
          exact ih (buf.drop (i + cfg.terminator.length)) m (by omega) (by omega)
        | part p =>
          rw [ih (buf.drop (i + cfg.terminator.length)) m (by omega) (by omega)]

theorem scpiLoop_cons_frame (rules : List Rule) (cfg : ScpiConfig)
    (h : cfg.terminator ≠ []) (c rest : List Nat) (f : Nat)
    (hfirst : findSub cfg.terminator (c ++ cfg.terminator) = some c.length)
    (hf : ((c ++ cfg.terminator) ++ rest).length < f) :
    scpiLoop rules cfg f ((c ++ cfg.terminator) ++ rest) =
      match processCmd rules cfg (c ++ cfg.terminator) with
      | .abort => ([], [], true)
      | .skip => scpiLoop rules cfg (rest.length + 1) rest
      | .part p =>
        let r := scpiLoop rules cfg (rest.length + 1) rest
        (p :: r.1, r.2.1, r.2.2) := by
  cases f with
  | zero => exact absurd hf (Nat.not_lt_zero _)
  | succ k =>
    have hfind : findSub cfg.terminator ((c ++ cfg.terminator) ++ rest) =
        some c.length := findSub_frame _ c rest hfirst
    have htl : 1 ≤ cfg.terminator.length := by
      cases hc : cfg.terminator with
      | nil => exact absurd hc h
      | cons a t => simp
    have htake : ((c ++ cfg.terminator) ++ rest).take
        (c.length + cfg.terminator.length) = c ++ cfg.terminator := by
      rw [show c.length + cfg.terminator.length = (c ++ cfg.terminator).length from
        (List.length_append _ _).symm]
      exact List.take_left _ _
    have hdrop : ((c ++ cfg.terminator) ++ rest).drop
        (c.length + cfg.terminator.length) = rest := by
      rw [show c.length + cfg.terminator.length = (c ++ cfg.terminator).length from
        (List.length_append _ _).symm]
      exact List.drop_left _ _
    have hlen : rest.length < k := by
      simp [List.length_append] at hf
      omega
    conv_lhs => rw [scpiLoop]
    rw [hfind]
    dsimp only
    rw [htake, hdrop]
    cases hp : processCmd rules cfg (c ++ cfg.terminator) with
    | abort => rfl
    | skip =>
      exact scpiLoop_fuel_congr rules cfg h k rest (rest.length + 1) hlen
        (Nat.lt_succ_self _)
    | part p =>
      dsimp only
      rw [scpiLoop_fuel_congr rules cfg h k rest (rest.length + 1) hlen
        (Nat.lt_succ_self _)]

theorem scpiLoop_frames (rules : List Rule) (cfg : ScpiConfig)
    (h : cfg.terminator ≠ []) :
    ∀ (frames : List (List Nat)) (rest : List Nat) (f : Nat),
      (∀ fr ∈ frames, IsFrame cfg.terminator fr ∧ processCmd rules cfg fr ≠ .abort) →
      findSub cfg.terminator rest = none →
      (frames.flatten ++ rest).length < f →
      scpiLoop rules cfg f (frames.flatten ++ rest) =
        (frames.filterMap (partOf rules cfg), rest, false) := by
  intro frames
  induction frames with
  | nil =>
    intro rest f hfr hrest hf
    simp only [List.flatten_nil, List.nil_append, List.filterMap_nil] at hf ⊢
    cases f with
    | zero => exact absurd hf (Nat.not_lt_zero _)
    | succ k => simp [scpiLoop, hrest]
  | cons fr frs ih =>
    intro rest f hfr hrest hf
    obtain ⟨⟨c, hc, hfirst⟩, habort⟩ := hfr fr (by simp)
    subst hc
    have heq : (List.flatten ((c ++ cfg.terminator) :: frs)) ++ rest =
        (c ++ cfg.terminator) ++ (frs.flatten ++ rest) := by
      simp
    rw [heq] at hf ⊢
    rw [scpiLoop_cons_frame rules cfg h c (frs.flatten ++ rest) f hfirst hf]
    have hih := ih rest (frs.flatten ++ rest).length.succ
      (fun fr2 h2 => hfr fr2 (by simp [h2]))
      hrest (Nat.lt_succ_self _)
    cases hp : processCmd rules cfg (c ++ cfg.terminator) with
    | abort => exact absurd hp habort
    | skip =>
      rw [hih]
      simp [List.filterMap_cons, partOf, hp]
    | part p =>
      dsimp only
      rw [hih]
      simp [List.filterMap_cons, partOf, hp]

theorem handle_data_append (rules : List Rule) (cfg : ScpiConfig)
    (a b : List Nat) :
    handle_data rules cfg a b = handle_data rules cfg [] (a ++ b) := rfl

theorem handle_data_frames (rules : List Rule) (cfg : ScpiConfig)
    (hterm : cfg.terminator ≠ [])
    (frames : List (List Nat)) (rest : List Nat)
    (hfr : ∀ fr ∈ frames, IsFrame cfg.terminator fr ∧ processCmd rules cfg fr ≠ .abort)
    (hrest : findSub cfg.terminator rest = none) :
    handle_data rules cfg [] (frames.flatten ++ rest) =
      (rest, joinResp (frames.filterMap (partOf rules cfg))) := by
  simp only [handle_data, List.nil_append]
  rw [scpiLoop_frames rules cfg hterm frames rest _ hfr hrest (Nat.lt_succ_self _)]
  simp [joinResp]

/-- C3: for the stream-framed (SCPI) handler starting from an empty
buffer, splitting one terminated command across two `handle_data` calls
extracts exactly one frame and produces exactly one response, equal to
the response produced by feeding the whole command in a single call;
the first call returns no response and the partial frame stays buffered
across the calls. -/
theorem scpi_split_frame_equiv (rules : List Rule) (cfg : ScpiConfig)
    (a b c p : List Nat)
    (hterm : cfg.terminator ≠ [])
    (ha : findSub cfg.terminator a = none)
    (hsplit : a ++ b = c ++ cfg.terminator)
    (hfirst : findSub cfg.terminator (a ++ b) = some c.length)
    (hcmd : processCmd rules cfg (c ++ cfg.terminator) = .part p) :
    handle_data rules cfg [] a = (a, none)
    ∧ handle_data rules cfg a b = ([], some p)
    ∧ handle_data rules cfg a b = handle_data rules cfg [] (a ++ b) := by
  have h1 : handle_data rules cfg [] a = (a, none) := by
    simp only [handle_data, List.nil_append]
    rw [show scpiLoop rules cfg (a.length + 1) a = ([], a, false) from by
      simp [scpiLoop, ha]]
    simp
  have h2 := handle_data_frames rules cfg hterm [c ++ cfg.terminator] []
    (by
      intro fr hfr2
      simp only [List.mem_singleton] at hfr2
      subst hfr2
      exact ⟨⟨c, rfl, hsplit ▸ hfirst⟩, by simp [hcmd]⟩)
    (findSub_nil _ hterm)
  have harg : List.flatten [c ++ cfg.terminator] ++ ([] : List Nat) = a ++ b := by
    simp [hsplit]
  rw [harg] at h2
  have hresp : joinResp (List.filterMap (partOf rules cfg) [c ++ cfg.terminator]) =
      some p := by
    simp [List.filterMap_cons, partOf, hcmd, joinResp]
  rw [hresp] at h2
  exact ⟨h1, (handle_data_append rules cfg a b).trans h2,
    handle_data_append rules cfg a b⟩

theorem scpi_split_frame_equiv_witness :
    scpiCfg.terminator ≠ []
    ∧ findSub scpiCfg.terminator [80, 73] = none
    ∧ ([80, 73] ++ [78, 71, 10] : List Nat) = [80, 73, 78, 71] ++ scpiCfg.terminator
    ∧ findSub scpiCfg.terminator ([80, 73] ++ [78, 71, 10]) =
        some ([80, 73, 78, 71] : List Nat).length
    ∧ processCmd [pingRule] scpiCfg ([80, 73, 78, 71] ++ scpiCfg.terminator) =
        .part pongBytes
    ∧ (handle_data [pingRule] scpiCfg [] [80, 73] = ([80, 73], none)
       ∧ handle_data [pingRule] scpiCfg [80, 73] [78, 71, 10] = ([], some pongBytes)
       ∧ handle_data [pingRule] scpiCfg [80, 73] [78, 71, 10] =
           handle_data [pingRule] scpiCfg [] ([80, 73] ++ [78, 71, 10])) :=
  ⟨by decide, by decide, by decide, by decide, by decide,
    scpi_split_frame_equiv [pingRule] scpiCfg [80, 73] [78, 71, 10]
      [80, 73, 78, 71] pongBytes (by decide) (by decide) (by decide)
      (by decide) (by decide)⟩

/-- C4: a single `handle_data` call whose input contains several
complete terminator-delimited frames extracts every frame, evaluates
each frame (terminator included) against the rule engine
(`partOf`/`processCmd` call `find_response` on the full frame bytes),
and returns the concatenation of all resulting response fragments in
the order the frames were extracted (`List.filterMap` preserves
order); a trailing partial frame stays buffered. -/
theorem scpi_multi_frame_in_order (rules : List Rule) (cfg : ScpiConfig)
    (frames : List (List Nat)) (rest : List Nat)
    (hterm : cfg.terminator ≠ [])
    (hfr : ∀ fr ∈ frames, IsFrame cfg.terminator fr ∧ processCmd rules cfg fr ≠ .abort)
    (hrest : findSub cfg.terminator rest = none) :
    handle_data rules cfg [] (frames.flatten ++ rest) =
      (rest, joinResp (frames.filterMap (partOf rules cfg))) :=
  handle_data_frames rules cfg hterm frames rest hfr hrest

theorem scpi_multi_frame_in_order_witness :
    scpiCfg.terminator ≠ []
    ∧ (∀ fr ∈ [pingBytes, pingBytes], IsFrame scpiCfg.terminator fr
        ∧ processCmd [pingRule] scpiCfg fr ≠ .abort)
    ∧ findSub scpiCfg.terminator [] = none
    ∧ handle_data [pingRule] scpiCfg [] (List.flatten [pingBytes, pingBytes] ++ []) =
        ([], joinResp (List.filterMap (partOf [pingRule] scpiCfg)
          [pingBytes, pingBytes]))
    ∧ joinResp (List.filterMap (partOf [pingRule] scpiCfg) [pingBytes, pingBytes]) =
        some (pongBytes ++ pongBytes) := by
  have hfr : ∀ fr ∈ [pingBytes, pingBytes], IsFrame scpiCfg.terminator fr
      ∧ processCmd [pingRule] scpiCfg fr ≠ .abort := by
    intro fr hfr
    simp only [List.mem_cons, List.not_mem_nil, or_false] at hfr
    rcases hfr with rfl | rfl <;>
      exact ⟨⟨[80, 73, 78, 71], by decide, by decide⟩, by decide⟩
  exact ⟨by decide, hfr, by decide,
    scpi_multi_frame_in_order [pingRule] scpiCfg [pingBytes, pingBytes] []
      (by decide) hfr (by decide), by decide⟩

/-- C5: `find_response` evaluates the rules in declaration order and
returns the response value and delay of the first rule that matches
(`List.find?` returns the first list element satisfying the
predicate); when no rule matches it returns `none`. -/
theorem find_response_first_match (rules : List Rule) (req : PyVal) :
    find_response rules req =
      (rules.find? (fun r => ruleMatches r req)).map
        (fun r => RuleMatch.mk r.respondValue r.delay) := by
  induction rules with
  | nil => rfl
  | cons r rs ih =>
    cases hr : r.receive with
    | none =>
      have hm : ruleMatches r req = false := by simp [ruleMatches, hr]
      simp [find_response, hr, List.find?_cons, hm, ih]
    | some recv =>
      cases he : evalMatch r recv req with
      | ok b =>
        cases b with
        | true =>
          have hm : ruleMatches r req = true := by simp [ruleMatches, hr, he]
          simp [find_response, hr, he, List.find?_cons, hm]
        | false =>
          have hm : ruleMatches r req = false := by simp [ruleMatches, hr, he]
          simp [find_response, hr, he, List.find?_cons, hm, ih]
      | error e =>
        have hm : ruleMatches r req = false := by simp [ruleMatches, hr, he]
        simp [find_response, hr, he, List.find?_cons, hm, ih]

theorem find_response_singleton (r : Rule) (req : PyVal) :
    find_response [r] req =
      if ruleMatches r req = true then some ⟨r.respondValue, r.delay⟩ else none := by
  cases hr : r.receive with
  | none => simp [find_response, ruleMatches, hr]
  | some recv =>
    cases he : evalMatch r recv req with
    | ok b => cases b <;> simp [find_response, ruleMatches, hr, he]
    | error e => simp [find_response, ruleMatches, hr, he]

/-- C6: a rule with match kind `exact` matches a parsed request iff the
request is structurally equal to the rule's match value (`PyVal`
equality is type-sensitive: a string constructor never equals a bytes
constructor); in particular a strict superstring or substring of a
bytes match value never matches, and a string match value never matches
a bytes request. -/
theorem exact_match_iff_structural_eq (v req resp : PyVal) (d : Rat)
    (creg : Option (List Char → Except Unit Bool)) :
    ((find_response [⟨some ⟨some "exact", v⟩, resp, d, creg⟩] req).isSome ↔ req = v)
    ∧ (∀ bv e : List Nat, e ≠ [] →
        find_response [⟨some ⟨some "exact", PyVal.vbytes bv⟩, resp, d, creg⟩]
          (PyVal.vbytes (bv ++ e)) = none
        ∧ find_response [⟨some ⟨some "exact", PyVal.vbytes (bv ++ e)⟩, resp, d, creg⟩]
          (PyVal.vbytes bv) = none)
    ∧ (∀ (s : List Char) (bs : List Nat),
        find_response [⟨some ⟨some "exact", PyVal.vstr s⟩, resp, d, creg⟩]
          (PyVal.vbytes bs) = none) := by
  have key : ∀ v' req' : PyVal,
      find_response [⟨some ⟨some "exact", v'⟩, resp, d, creg⟩] req' =
        if req' = v' then some ⟨resp, d⟩ else none := by
    intro v' req'
    rw [find_response_singleton]
    have hrm : ruleMatches ⟨some ⟨some "exact", v'⟩, resp, d, creg⟩ req' =
        pyEq v' req' := by
      cases hpq : pyEq v' req' <;> simp [ruleMatches, evalMatch, hpq]
    rw [hrm]
    by_cases hb : pyEq v' req' = true
    · rw [if_pos hb, if_pos (((pyEq_iff _ _).1 hb).symm)]
    · rw [if_neg hb, if_neg (fun hh => hb ((pyEq_iff _ _).2 hh.symm))]
  refine ⟨?_, ?_, ?_⟩
  · rw [key v req]
    by_cases hh : req = v <;> simp [hh]
  · intro bv e he
    have h1 : PyVal.vbytes (bv ++ e) ≠ PyVal.vbytes bv := by
      intro hh
      have h2 : bv ++ e = bv := PyVal.vbytes.inj hh
      have h3 := congrArg List.length h2
      simp only [List.length_append] at h3
      exact he (List.eq_nil_of_length_eq_zero (by omega))
    constructor
    · rw [key (PyVal.vbytes bv) (PyVal.vbytes (bv ++ e)), if_neg h1]
    · rw [key (PyVal.vbytes (bv ++ e)) (PyVal.vbytes bv),
        if_neg (fun hh => h1 hh.symm)]
  · intro s bs
    rw [key (PyVal.vstr s) (PyVal.vbytes bs), if_neg (by simp)]

theorem exact_match_iff_structural_eq_witness :
    (([49] : List Nat) ≠ [])
    ∧ ((find_response [⟨some ⟨some "exact", PyVal.vbytes pingBytes⟩,
        PyVal.vbytes pongBytes, 0, none⟩] (PyVal.vbytes pingBytes)).isSome
        ↔ PyVal.vbytes pingBytes = PyVal.vbytes pingBytes)
    ∧ find_response [⟨some ⟨some "exact", PyVal.vbytes pingBytes⟩,
        PyVal.vbytes pongBytes, 0, none⟩] (PyVal.vbytes (pingBytes ++ [49])) = none
    ∧ find_response [⟨some ⟨some "exact", PyVal.vbytes (pingBytes ++ [49])⟩,
        PyVal.vbytes pongBytes, 0, none⟩] (PyVal.vbytes pingBytes) = none
    ∧ find_response [⟨some ⟨some "exact", PyVal.vstr ['P']⟩,
        PyVal.vbytes pongBytes, 0, none⟩] (PyVal.vbytes [80]) = none := by
  have h := exact_match_iff_structural_eq (PyVal.vbytes pingBytes)
    (PyVal.vbytes pingBytes) (PyVal.vbytes pongBytes) 0 none
  have h2 := (exact_match_iff_structural_eq (PyVal.vbytes pingBytes)
    (PyVal.vbytes (pingBytes ++ [49])) (PyVal.vbytes pongBytes) 0 none).2.1
    pingBytes [49] (by decide)
  have h3 := (exact_match_iff_structural_eq (PyVal.vstr ['P'])
    (PyVal.vbytes [80]) (PyVal.vbytes pongBytes) 0 none).2.2 ['P'] [80]
  exact ⟨by decide, h.1, h2.1, h2.2, h3⟩

/-- C7: a rule with match kind `prefix` matches a parsed request iff
request and match value share the same representation (both strings or
both bytes) and the request starts with the match value; mixed
representations (string vs. bytes in either direction), and any other
value shapes, never match. -/
theorem prefix_match_iff_same_rep (v req resp : PyVal) (d : Rat)
    (creg : Option (List Char → Except Unit Bool)) :
    (find_response [⟨some ⟨some "prefix", v⟩, resp, d, creg⟩] req).isSome
    ↔ ((∃ sv sr t, v = PyVal.vstr sv ∧ req = PyVal.vstr sr ∧ sr = sv ++ t)
       ∨ (∃ bv br t, v = PyVal.vbytes bv ∧ req = PyVal.vbytes br ∧ br = bv ++ t)) := by
  rw [find_response_singleton]
  have hrm : ruleMatches ⟨some ⟨some "prefix", v⟩, resp, d, creg⟩ req =
      (match req, v with
        | PyVal.vstr p, PyVal.vstr w => w.isPrefixOf p
        | PyVal.vbytes p, PyVal.vbytes w => w.isPrefixOf p
        | _, _ => false) := by
    cases hb : (match req, v with
        | PyVal.vstr p, PyVal.vstr w => w.isPrefixOf p
        | PyVal.vbytes p, PyVal.vbytes w => w.isPrefixOf p
        | _, _ => false) <;>
      simp [ruleMatches, evalMatch, hb]
  rw [hrm]
  cases v <;> cases req <;>
    simp [isPrefixOf_eq_true_iff] <;>
    exact ⟨fun ⟨t, ht⟩ => ⟨t, ht.symm⟩, fun ⟨t, ht⟩ => ⟨t, ht.symm⟩⟩

/-- C10: a rule whose `receive` mapping is missing or empty never
matches (`find_response` skips it with `continue`), and an exception
raised while evaluating one rule's match condition only skips that
rule: `find_response` on the remaining rules is unchanged, so a later
rule can still produce the returned match. -/
theorem find_response_skips_bad_rules (r : Rule) (rs : List Rule) (req : PyVal)
    (h : r.receive = none
      ∨ ∃ recv, r.receive = some recv ∧ evalMatch r recv req = .error ()) :
    find_response (r :: rs) req = find_response rs req := by
  rcases h with h | ⟨recv, hrecv, herr⟩
  · simp [find_response, h]
  · simp [find_response, hrecv, herr]

theorem find_response_skips_bad_rules_witness :
    (errRule.receive = some errRecv
      ∧ evalMatch errRule errRecv (PyVal.vbytes pingBytes) = .error ())
    ∧ find_response [errRule, pingRule] (PyVal.vbytes pingBytes) =
        find_response [pingRule] (PyVal.vbytes pingBytes)
    ∧ find_response [errRule, pingRule] (PyVal.vbytes pingBytes) =
        some ⟨PyVal.vbytes pongBytes, 0⟩ := by
  have hskip := find_response_skips_bad_rules errRule [pingRule]
    (PyVal.vbytes pingBytes) (Or.inr ⟨errRecv, rfl, rfl⟩)
  exact ⟨⟨rfl, rfl⟩, hskip, hskip.trans (by decide)⟩

theorem readLoop_length (space : List (Int × Int)) :
    ∀ (n : Nat) (a : Int), (readLoop space a n).1.length = n := by
  intro n
  induction n with
  | zero => intro a; simp [readLoop]
  | succ m ih =>
    intro a
    cases hl : alLookup space a <;> simp [readLoop, hl, ih (a + 1)]

theorem readLoop_get? (space : List (Int × Int)) :
    ∀ (n : Nat) (a : Int) (i : Nat), i < n →
      (readLoop space a n).1[i]? = some ((alLookup space (a + (i : Int))).getD 0) := by
  intro n
  induction n with
  | zero => intro a i hi; exact absurd hi (Nat.not_lt_zero _)
  | succ m ih =>
    intro a i hi
    cases i with
    | zero =>
      cases hl : alLookup space a <;> simp [readLoop, hl]
    | succ j =>
      have hj : j < m := by omega
      have := ih (a + 1) j hj
      have harith : (a + 1) + (j : Int) = a + ((j : Nat) + 1 : Nat) := by
        push_cast
        ring
      cases hl : alLookup space a <;>
        simp only [readLoop, hl] <;>
        simpa [harith] using this

theorem readLoop_warn (space : List (Int × Int)) :
    ∀ (n : Nat) (a : Int),
      (readLoop space a n).2 =
        ((List.range n).map (fun i : Nat => a + (i : Int))).filter
          (fun ad => (alLookup space ad).isNone) := by
  intro n
  induction n with
  | zero => intro a; simp [readLoop]
  | succ m ih =>
    intro a
    have hstep : (List.range (m + 1)).map (fun i : Nat => a + (i : Int)) =
        a :: (List.range m).map (fun i : Nat => (a + 1) + (i : Int)) := by
      rw [List.range_succ_eq_map, List.map_cons, List.map_map]
      congr 1
      · simp
      · apply List.map_congr_left
        intro i hi
        simp only [Function.comp_apply]
        push_cast
        ring
    rw [hstep, List.filter_cons]
    cases hl : alLookup space a <;>
      simp [readLoop, hl, ih (a + 1)]

/-- C8: for a configured register type, a non-negative address and a
positive count, `read_registers` succeeds with exactly `count` values,
position `i` holding the stored value at `address + i` when present and
zero when absent; each absent address is reported as a recoverable
warning (collected in the second component) rather than failing the
read. -/
theorem read_registers_zero_fill (regs : RegMap) (rt : String)
    (space : List (Int × Int)) (a c : Int)
    (hsp : alLookup regs rt = some space) (ha : 0 ≤ a) (hc : 0 < c) :
    ∃ vs, (read_registers regs rt a c).1 = some vs
      ∧ vs.length = c.toNat
      ∧ (∀ i : Nat, i < vs.length → vs[i]? = some ((alLookup space (a + (i : Int))).getD 0))
      ∧ (read_registers regs rt a c).2 =
          ((List.range c.toNat).map (fun i : Nat => a + (i : Int))).filter
            (fun ad => (alLookup space ad).isNone) := by
  have hcond : ¬ (a < 0 ∨ c ≤ 0) := by omega
  refine ⟨(readLoop space a c.toNat).1, ?_, readLoop_length space c.toNat a, ?_, ?_⟩
  · simp [read_registers, hsp, hcond]
  · intro i hi
    rw [readLoop_length space c.toNat a] at hi
    exact readLoop_get? space c.toNat a i hi
  · simp [read_registers, hsp, hcond]
    exact readLoop_warn space c.toNat a

theorem read_registers_zero_fill_witness :
    alLookup demoRegs "holding" = some [(6, 77)]
    ∧ (0 : Int) ≤ 5 ∧ (0 : Int) < 3
    ∧ (∃ vs, (read_registers demoRegs "holding" 5 3).1 = some vs
        ∧ vs.length = (3 : Int).toNat
        ∧ (∀ i : Nat, i < vs.length →
            vs[i]? = some ((alLookup [((6 : Int), (77 : Int))] (5 + (i : Int))).getD 0))
        ∧ (read_registers demoRegs "holding" 5 3).2 =
            ((List.range (3 : Int).toNat).map (fun i : Nat => (5 : Int) + (i : Int))).filter
              (fun ad => (alLookup [((6 : Int), (77 : Int))] ad).isNone))
    ∧ (read_registers demoRegs "holding" 5 3).1 = some [0, 77, 0]
    ∧ (read_registers demoRegs "holding" 5 3).2 = [5, 7] :=
  ⟨rfl, by decide, by decide,
    read_registers_zero_fill demoRegs "holding" [(6, 77)] 5 3 rfl (by decide) (by decide),
    by decide, by decide⟩

theorem alLookup_alSet_self {α β : Type} [DecidableEq α] :
    ∀ (l : List (α × β)) (k : α) (v : β), alLookup (alSet l k v) k = some v := by
  intro l k v
  induction l with
  | nil => simp [alSet, alLookup]
  | cons kv t ih =>
    obtain ⟨k', v'⟩ := kv
    by_cases h : k' = k <;> simp [alSet, alLookup, h, ih]

theorem alLookup_alModify_self {α β : Type} [DecidableEq α] :
    ∀ (l : List (α × β)) (k : α) (f : β → β) (sp : β),
      alLookup l k = some sp → alLookup (alModify l k f) k = some (f sp) := by
  intro l k f
  induction l with
  | nil => intro sp h; simp [alLookup] at h
  | cons kv t ih =>
    obtain ⟨k', v'⟩ := kv
    intro sp h
    by_cases hk : k' = k
    · simp [alLookup, hk] at h
      simp [alModify, alLookup, hk, h]
    · simp [alLookup, hk] at h
      simp [alModify, alLookup, hk, ih sp h]

/-- C9: for a register type that pre-exists in the configured map and a
non-negative address, `write_register` succeeds, and a subsequent
`read_registers` of one register at the same address returns exactly
the written value. -/
theorem write_then_read_roundtrip (regs : RegMap) (rt : String)
    (space : List (Int × Int)) (a v : Int)
    (hsp : alLookup regs rt = some space) (ha : 0 ≤ a) :
    ∃ regs2, write_register regs rt a v = some regs2
      ∧ (read_registers regs2 rt a 1).1 = some [v] := by
  have hna : ¬ a < 0 := by omega
  refine ⟨alModify regs rt (fun sp => alSet sp a v), ?_, ?_⟩
  · simp [write_register, hsp, hna]
  · have hsp2 : alLookup (alModify regs rt (fun sp => alSet sp a v)) rt =
        some (alSet space a v) := alLookup_alModify_self regs rt _ space hsp
    have hcond : ¬ (a < 0 ∨ (1 : Int) ≤ 0) := by omega
    have h1 : readLoop (alSet space a v) a 1 = ([v], []) := by
      simp [readLoop, alLookup_alSet_self]
    simp [read_registers, hsp2, hcond, h1, hna]

theorem write_then_read_roundtrip_witness :
    alLookup demoRegs "holding" = some [(6, 77)]
    ∧ (0 : Int) ≤ 9
    ∧ (∃ regs2, write_register demoRegs "holding" 9 123 = some regs2
        ∧ (read_registers regs2 "holding" 9 1).1 = some [123])
    ∧ write_register demoRegs "holding" 9 123 =
        some [("holding", [(6, 77), (9, 123)])] :=
  ⟨rfl, by decide,
    write_then_read_roundtrip demoRegs "holding" [(6, 77)] 9 123 rfl (by decide),
    by decide⟩

theorem alSet_keys {α β : Type} [DecidableEq α] :
    ∀ (l : List (α × β)) (k : α) (v : β),
      (alSet l k v).map Prod.fst = keyInsert (l.map Prod.fst) k := by
  intro l k v
  induction l with
  | nil => simp [alSet, keyInsert]
  | cons kv t ih =>
    obtain ⟨k', v'⟩ := kv
    by_cases h : k' = k
    · subst h
      simp [alSet, keyInsert]
    · have hne : ¬ k = k' := fun hh => h hh.symm
      by_cases hm : k ∈ t.map Prod.fst
      · simp [alSet, keyInsert, h, hne, hm, ih]
      · simp [alSet, keyInsert, h, hne, hm, ih]

theorem keyInsert_nodup {α : Type} [DecidableEq α] (ks : List α) (k : α)
    (h : ks.Nodup) : (keyInsert ks k).Nodup := by
  unfold keyInsert
  split
  · exact h
  · rename_i hk
    simp [List.nodup_append, h, hk]

theorem keyInsert_toFinset {α : Type} [DecidableEq α] (ks : List α) (k : α) :
    (keyInsert ks k).toFinset = insert k ks.toFinset := by
  unfold keyInsert
  split
  · rename_i hk
    exact (Finset.insert_eq_self.2 (List.mem_toFinset.2 hk)).symm
  · simp [List.toFinset_append, Finset.union_comm, Finset.insert_eq]

theorem foldl_keyInsert_spec {α : Type} [DecidableEq α] :
    ∀ (names : List α) (ks : List α), ks.Nodup →
      (names.foldl keyInsert ks).Nodup
      ∧ (names.foldl keyInsert ks).toFinset = ks.toFinset ∪ names.toFinset := by
  intro names
  induction names with
  | nil => intro ks h; simp [h]
  | cons n rest ih =>
    intro ks h
    simp only [List.foldl_cons]
    obtain ⟨h1, h2⟩ := ih (keyInsert ks n) (keyInsert_nodup _ _ h)
    refine ⟨h1, ?_⟩
    rw [h2, keyInsert_toFinset]
    simp only [List.toFinset_cons]
    rw [Finset.insert_union, Finset.union_insert]

theorem foldl_startStep_keys :
    ∀ (confs : List DeviceConf) (d : DeviceDict),
      (confs.foldl startStep d).map Prod.fst =
        (createdNames confs).foldl keyInsert (d.map Prod.fst) := by
  intro confs
  induction confs with
  | nil => intro d; simp [createdNames]
  | cons c cs ih =>
    intro d
    simp only [List.foldl_cons]
    by_cases h1 : effEnabled c.enabled
    · by_cases h2 : c.createOk
      · have hs : startStep d c = alSet d c.name ⟨c.stopOk⟩ := by
          simp [startStep, h1, h2]
        have hn : createdNames (c :: cs) = c.name :: createdNames cs := by
          simp [createdNames, List.filter_cons, h1, h2]
        rw [hs, hn, List.foldl_cons, ih, alSet_keys]
      · have hs : startStep d c = d := by simp [startStep, h1, h2]
        have hn : createdNames (c :: cs) = createdNames cs := by
          simp [createdNames, List.filter_cons, h1, h2]
        rw [hs, hn, ih]
    · have hs : startStep d c = d := by simp [startStep, h1]
      have hn : createdNames (c :: cs) = createdNames cs := by
        simp [createdNames, List.filter_cons, h1]
      rw [hs, hn, ih]

/-- C1 (amended): `start_all` catches and logs a construction failure
of any one enabled device and excludes that device from the tracked
set without preventing any other device from being created and started
(removing the failing definition leaves the result unchanged); a start
failure is also caught (swallowed by `gather(...,
return_exceptions=True)`) but the device *remains* tracked, so after
`start_all` returns, `get_active_device_count()` equals the number of
distinct names among the enabled devices whose construction succeeded,
regardless of start outcomes. -/
theorem start_all_count_and_isolation :
    (∀ confs : List DeviceConf,
      get_active_device_count (start_all confs) = (createdNames confs).toFinset.card)
    ∧ (∀ (pre post : List DeviceConf) (c : DeviceConf), c.createOk = false →
        start_all (pre ++ c :: post) = start_all (pre ++ post)) := by
  constructor
  · intro confs
    have hkeys := foldl_startStep_keys confs []
    obtain ⟨hnd, hfin⟩ := foldl_keyInsert_spec (createdNames confs) [] List.nodup_nil
    calc get_active_device_count (start_all confs)
        = ((start_all confs).map Prod.fst).length := (List.length_map _ _).symm
      _ = ((createdNames confs).foldl keyInsert []).length := by
          rw [show (start_all confs).map Prod.fst =
            (createdNames confs).foldl keyInsert ([] : List (List Char)) from hkeys]
      _ = ((createdNames confs).foldl keyInsert []).toFinset.card :=
          (List.toFinset_card_of_nodup hnd).symm
      _ = (createdNames confs).toFinset.card := by rw [hfin]; simp
  · intro pre post c hc
    unfold start_all
    rw [List.foldl_append, List.foldl_append, List.foldl_cons]
    have hstep : startStep (pre.foldl startStep []) c = pre.foldl startStep [] := by
      simp [startStep, hc]
    rw [hstep]

theorem start_all_count_and_isolation_witness :
    c1FailCreate.createOk = false
    ∧ get_active_device_count (start_all [c1GoodA, c1FailCreate, c1GoodC]) =
        (createdNames [c1GoodA, c1FailCreate, c1GoodC]).toFinset.card
    ∧ start_all ([c1GoodA] ++ c1FailCreate :: [c1GoodC]) =
        start_all ([c1GoodA] ++ [c1GoodC])
    ∧ get_active_device_count (start_all [c1GoodA, c1FailCreate, c1GoodC]) = 2 :=
  ⟨rfl, start_all_count_and_isolation.1 [c1GoodA, c1FailCreate, c1GoodC],
    start_all_count_and_isolation.2 [c1GoodA] [c1GoodC] c1FailCreate rfl,
    by decide⟩

/-- C1 as stated is false: one enabled device whose construction
succeeds but whose scheduled `instance.start()` task fails stays in
`EmulatorManager.devices`, so `get_active_device_count()` is 1 while
the number of enabled devices constructed *and started* successfully
is 0. -/
theorem start_all_count_counterexample :
    get_active_device_count (start_all [c1BadConf]) ≠ c1ClaimedCount [c1BadConf] := by
  decide

/-- C2 (amended): `stop_all` clears the tracked-device map after all
stops completed only when *no* stop raised; calling it twice in a row
is then safe and leaves the count at zero after each call.  If any
stop raises, `asyncio.gather` (without `return_exceptions=True`)
re-raises before `self.devices = {}` runs, and the tracked map is left
unchanged. -/
theorem stop_all_converges_when_no_raise (d : DeviceDict) :
    (d.all (fun kv => kv.2.stopOk) = true →
      stop_all d = ([], false)
      ∧ get_active_device_count (stop_all d).1 = 0
      ∧ stop_all (stop_all d).1 = ([], false)
      ∧ get_active_device_count (stop_all (stop_all d).1).1 = 0)
    ∧ (d.all (fun kv => kv.2.stopOk) = false → stop_all d = (d, true)) := by
  constructor
  · intro h
    simp [stop_all, h, get_active_device_count]
  · intro h
    simp [stop_all, h]

theorem stop_all_converges_when_no_raise_witness :
    c2GoodDict.all (fun kv => kv.2.stopOk) = true
    ∧ (stop_all c2GoodDict = ([], false)
      ∧ get_active_device_count (stop_all c2GoodDict).1 = 0
      ∧ stop_all (stop_all c2GoodDict).1 = ([], false)
      ∧ get_active_device_count (stop_all (stop_all c2GoodDict).1).1 = 0) :=
  ⟨by decide, (stop_all_converges_when_no_raise c2GoodDict).1 (by decide)⟩

/-- C2 as stated is false: with one tracked device whose `stop()`
raises, `stop_all` propagates the exception and the tracked-device map
is *not* cleared — the active device count stays 1, not 0. -/
theorem stop_all_counterexample :
    (stop_all c2BadDict).2 = true
    ∧ get_active_device_count (stop_all c2BadDict).1 = 1 := by
  decide
